import Mathlib

/-!
Verification of the graph library (GraphAlgo.py): the directed weighted
graph data model, Dijkstra shortest path, strongly-connected components
by double BFS, and the JSON persistence boundary.

The graph data structure itself (DiGraph, NodeData, GeoLocation) is not
part of the sources; following the specification it is modelled as an
insertion-ordered vertex list with optional 3D positions plus an
insertion-ordered edge list.  Edge weights (Python floats) are modelled
as rationals; the float infinity used as the distance tag is modelled by
the top element of WithTop.
-/

set_option maxHeartbeats 4000000

abbrev W : Type := WithTop ℚ

abbrev Pos : Type := ℚ × ℚ × ℚ

/-- Modelled from the spec: the DiGraph class is absent from the sources.
Section 3 of the spec describes a vertex map (id to optional position) and
mirrored adjacency maps.  We store the vertices in insertion order and the
edge set as one insertion-ordered list of (src, dest, weight) triples; the
out- and in-adjacency maps are derived views of that list, which keeps the
mirror invariant by construction. -/
structure DiGraph where
  nodes : List (Nat × Option Pos)
  edges : List (Nat × Nat × ℚ)

/-- The vertex id list, in insertion order (the keys of get_all_v). -/
def vertIds (g : DiGraph) : List Nat := g.nodes.map Prod.fst

/-- Modelled from the spec: DiGraph.all_out_edges_of_node, the map from a
vertex to its outgoing (dest, weight) pairs in insertion order. -/
def all_out_edges_of_node (g : DiGraph) (v : Nat) : List (Nat × ℚ) :=
  g.edges.filterMap (fun e => if e.1 = v then some (e.2.1, e.2.2) else none)

/-- Modelled from the spec: DiGraph.all_in_edges_of_node, the map from a
vertex to its incoming (src, weight) pairs. -/
def all_in_edges_of_node (g : DiGraph) (v : Nat) : List (Nat × ℚ) :=
  g.edges.filterMap (fun e => if e.2.1 = v then some (e.1, e.2.2) else none)

/-- Well-formedness of the data model per spec section 3: vertex ids are
distinct, no duplicate (src, dest) pairs, edge endpoints exist, weights are
non-negative and self-loops are disallowed. -/
def WFGraph (g : DiGraph) : Prop :=
  (vertIds g).Nodup ∧ (g.edges.map (fun e => (e.1, e.2.1))).Nodup ∧
  ∀ e ∈ g.edges, e.1 ∈ vertIds g ∧ e.2.1 ∈ vertIds g ∧ 0 ≤ e.2.2 ∧ e.1 ≠ e.2.1

instance (g : DiGraph) : Decidable (WFGraph g) := by
  unfold WFGraph; infer_instance

/-! ## Paths -/

/-- There is an edge from u to v. -/
def hasEdgeB (g : DiGraph) (u v : Nat) : Bool :=
  (all_out_edges_of_node g u).any (fun dw => dw.1 == v)

/-- Consecutive elements of the list are joined by edges. -/
def chainB (g : DiGraph) : List Nat → Bool
  | [] => true
  | [_] => true
  | x :: y :: r => hasEdgeB g x y && chainB g (y :: r)

/-- The weight of the edge from u to v (0 if absent; lookups are only made
on existing edges, which are unique under WFGraph). -/
def edgeW (g : DiGraph) (u v : Nat) : ℚ :=
  match (all_out_edges_of_node g u).find? (fun dw => dw.1 == v) with
  | some dw => dw.2
  | none => 0

/-- Total weight of a vertex chain. -/
def pathW (g : DiGraph) : List Nat → ℚ
  | [] => 0
  | [_] => 0
  | x :: y :: r => edgeW g x y + pathW g (y :: r)

/-- p is a directed path from s to v (listing every vertex on it). -/
def IsPathFrom (g : DiGraph) (s v : Nat) (p : List Nat) : Prop :=
  p.head? = some s ∧ p.getLast? = some v ∧ chainB g p = true

instance (g : DiGraph) (s v : Nat) (p : List Nat) : Decidable (IsPathFrom g s v p) := by
  unfold IsPathFrom; infer_instance

/-- v is reachable from s by a directed path. -/
def Reachable (g : DiGraph) (s v : Nat) : Prop :=
  ∃ p, IsPathFrom g s v p

/-! ## The Dijkstra loop of shortest_path (GraphAlgo.py lines 110-130)

The Python loop mutates per-vertex tag fields, a predecessor dict and a
heapq list of (tag, id) pairs.  The state of that loop: -/

structure DState where
  tag : Nat → W
  prevM : Nat → Option Nat
  heap : List (W × Nat)
  visitedL : List Nat

/-- Lexicographic order on heap entries, as Python compares (float, int)
tuples. -/
def keyLe (a b : W × Nat) : Bool :=
  decide (a.1 < b.1) || (decide (a.1 = b.1) && decide (a.2 ≤ b.2))

/-- The least entry of the heap (heapq.heappop pops the least tuple). -/
def findMin : List (W × Nat) → Option (W × Nat)
  | [] => none
  | x :: xs =>
    some (match findMin xs with
          | none => x
          | some m => if keyLe x m then x else m)

/-- Pop the least entry, returning it and the remaining entries. -/
def popMin (l : List (W × Nat)) : Option ((W × Nat) × List (W × Nat)) :=
  match findMin l with
  | none => none
  | some m => some (m, l.erase m)

/-- One iteration of the inner for-loop of shortest_path (lines 123-130):
relax the edge from the popped vertex v to neighbour zw.1 of weight zw.2.
The two guards mirror the source: the never-populated visited list, and
the membership re-check of the neighbour among the out-edge keys. -/
def relaxStep (g : DiGraph) (v : Nat) (st : DState) (zw : Nat × ℚ) : DState :=
  if zw.1 ∈ st.visitedL then st
  else if ((all_out_edges_of_node g v).map Prod.fst).contains zw.1 then
    let alt : W := st.tag v + (zw.2 : ℚ)
    if alt < st.tag zw.1 then
      { tag := fun x => if x = zw.1 then alt else st.tag x,
        prevM := fun x => if x = zw.1 then some v else st.prevM x,
        heap := st.heap ++ [(alt, zw.1)],
        visitedL := st.visitedL }
    else st
  else st

/-- The whole inner for-loop over the out-neighbours of v. -/
def relaxAll (g : DiGraph) (v : Nat) (st : DState) : DState :=
  (all_out_edges_of_node g v).foldl (relaxStep g v) st

/-- One iteration of the while-loop (lines 121-130): pop the least heap
entry and relax all out-edges of the popped vertex. -/
def dstep (g : DiGraph) (st : DState) : DState :=
  match popMin st.heap with
  | none => st
  | some (kv, rest) => relaxAll g kv.2 { st with heap := rest }

/-- The while-loop, with explicit fuel (the loop of the source has none;
the termination development below shows some fuel always drains the
heap). -/
def runD (g : DiGraph) : Nat → DState → DState
  | 0, st => st
  | n + 1, st => if st.heap = [] then st else runD g n (dstep g st)

/-- The initial state (lines 113-119): all tags infinite except the source
at 0, empty predecessor dict, the heap holding (0, source), and the
visited list empty. -/
def initD (g : DiGraph) (s : Nat) : DState :=
  { tag := fun x => if x = s then (0 : W) else ⊤,
    prevM := fun _ => none,
    heap := [((0 : W), s)],
    visitedL := [] }

/-- The path-reconstruction loop (lines 131-137): walk predecessor links
while the current tag is positive; a missing predecessor entry raises
KeyError.  Fuel models the unbounded while-loop; the accumulator is kept
in final order (the source appends then reverses once). -/
def rebuild (st : DState) : Nat → Nat → List Nat → Except String (List Nat)
  | 0, _, _ => Except.error ("loop")
  | n + 1, cur, acc =>
    if (0 : W) < st.tag cur then
      match st.prevM cur with
      | none => Except.error ("KeyError")
      | some u => rebuild st n u (cur :: acc)
    else Except.ok (cur :: acc)

/-- shortest_path (lines 110-138).  Returns ok none for the Python sentinel
None when an endpoint is missing, ok (some (distance, path)) on normal
return, and error for an uncaught Python exception.  The main loop takes
its fuel as an argument; the reconstruction walk gets fuel one more than
the vertex count, shown sufficient whenever the walk terminates. -/
def shortest_path (g : DiGraph) (id1 id2 : Nat) (fuel : Nat) :
    Except String (Option (W × List Nat)) :=
  if id1 ∈ vertIds g ∧ id2 ∈ vertIds g then
    let st := runD g fuel (initD g id1)
    match rebuild st (g.nodes.length + 1) id2 [] with
    | Except.error e => Except.error e
    | Except.ok li => Except.ok (some (st.tag id2, li))
  else Except.ok none

/-- Decidable equality of Except values, for evaluating shortest_path on
concrete inputs. -/
def exceptDecEq {e a : Type} [DecidableEq e] [DecidableEq a] :
    (x y : Except e a) → Decidable (x = y)
  | Except.ok x, Except.ok y =>
    if h : x = y then isTrue (by rw [h])
    else isFalse (by intro hh; injection hh; contradiction)
  | Except.ok _, Except.error _ => isFalse (by intro hh; exact Except.noConfusion hh)
  | Except.error _, Except.ok _ => isFalse (by intro hh; exact Except.noConfusion hh)
  | Except.error x, Except.error y =>
    if h : x = y then isTrue (by rw [h])
    else isFalse (by intro hh; injection hh; contradiction)

instance {e a : Type} [DecidableEq e] [DecidableEq a] : DecidableEq (Except e a) :=
  exceptDecEq

/-! ## BFS and connected components (lines 144-218) -/

/-- The inner for-loop of bfs_out/bfs_in: mark and enqueue the unvisited
neighbours. -/
def bfsScan (vis : Nat → Bool) (q : List Nat) (nbrs : List Nat) :
    (Nat → Bool) × List Nat :=
  nbrs.foldl
    (fun vq i =>
      if vq.1 i then vq
      else (fun x => if x = i then true else vq.1 x, vq.2 ++ [i]))
    (vis, q)

/-- The while-loop of bfs_out/bfs_in with explicit fuel; adj gives the
neighbour ids of a vertex.  Each enqueue marks a fresh vertex, so fuel
exceeding the vertex count drains the queue. -/
def bfsRun (adj : Nat → List Nat) : Nat → (Nat → Bool) → List Nat → (Nat → Bool)
  | 0, vis, _ => vis
  | _ + 1, vis, [] => vis
  | n + 1, vis, s :: qr =>
    let vq := bfsScan vis qr (adj s)
    bfsRun adj n vq.1 vq.2

/-- The key order of the Python visited dict: all graph vertices, then the
start vertex if it was not a graph vertex. -/
def visKeys (g : DiGraph) (id1 : Nat) : List Nat :=
  if id1 ∈ vertIds g then vertIds g else vertIds g ++ [id1]

/-- bfs_out (lines 176-196): vertices reachable from id1 along outgoing
edges, in visited-dict order, with id1 itself removed at the end. -/
def bfs_out (g : DiGraph) (id1 : Nat) : List Nat :=
  let vis0 : Nat → Bool := fun x => x = id1
  let visF := bfsRun (fun v => (all_out_edges_of_node g v).map Prod.fst)
    (g.nodes.length + 2) vis0 [id1]
  ((visKeys g id1).filter (fun v => visF v)).erase id1

/-- bfs_in (lines 198-218): same traversal along incoming edges. -/
def bfs_in (g : DiGraph) (id1 : Nat) : List Nat :=
  let vis0 : Nat → Bool := fun x => x = id1
  let visF := bfsRun (fun v => (all_in_edges_of_node g v).map Prod.fst)
    (g.nodes.length + 2) vis0 [id1]
  ((visKeys g id1).filter (fun v => visF v)).erase id1

/-- connected_component (lines 144-155).  Lines 153-154 run the two BFS
traversals (which complete normally), but line 155 applies the operator &
to their results, and bfs_in and bfs_out return plain Python lists, not
sets: & is not defined between lists, so every call raises TypeError
(unsupported operand types for &) before any value is produced. -/
def connected_component (g : DiGraph) (id1 : Nat) : Except String (List Nat) :=
  let _set_in := bfs_in g id1
  let _set_out := bfs_out g id1
  Except.error ("TypeError")

/-- connected_components (lines 158-173): scan the vertices, skipping those
already collected, extending the visited list by each new component.  The
call to connected_component at line 170 raises TypeError, which this loop
does not catch, so any graph with at least one vertex raises; only the
empty graph completes the loop (returning the empty list). -/
def connected_components (g : DiGraph) : Except String (List (List Nat)) :=
  match (vertIds g).foldlM
    (fun (acc : List Nat × List (List Nat)) node =>
      if node ∈ acc.1 then Except.ok acc
      else
        match connected_component g node with
        | Except.error e => Except.error e
        | Except.ok scc => Except.ok (acc.1 ++ scc, acc.2 ++ [scc]))
    ([], []) with
  | Except.error e => Except.error e
  | Except.ok acc => Except.ok acc.2

/-! ## JSON persistence boundary (lines 25-80)

File contents and the json module are external; we model the outcome of
open plus json.load by a small inductive, and a well-typed parsed document
by the lists of node and edge records. -/

/-- A parsed JSON document: node records (node_id, optional pos) and edge
records (src, dest, w); the key order inside a JSON object is immaterial. -/
structure JsonDoc where
  nodesJ : List (Nat × Option Pos)
  edgesJ : List (Nat × Nat × ℚ)

/-- Outcome of open(file_name) followed by json.load: the file is missing
or unreadable (open raises), the contents fail to parse (json.load
raises), or a document is produced. -/
inductive LoadInput where
  | missing
  | parseError
  | parsed (doc : JsonDoc)

/-- Normal return or an uncaught Python exception. -/
inductive PyOutcome (α : Type) where
  | ret (a : α)
  | exc (name : String)
  deriving DecidableEq

/-- Modelled from the spec: DiGraph.add_node.  Spec section 4.1: inserting
an existing id is a permissive no-op; otherwise the vertex is appended. -/
def add_node (g : DiGraph) (nid : Nat) (p : Option Pos) : DiGraph :=
  if nid ∈ vertIds g then g else { g with nodes := g.nodes ++ [(nid, p)] }

/-- Modelled from the spec: DiGraph.add_edge.  Spec section 4.1: fails (as
a no-op on the stored state) if an endpoint is absent, the weight is
negative or src equals dest; otherwise upserts the weight. -/
def add_edge (g : DiGraph) (src dest : Nat) (w : ℚ) : DiGraph :=
  if src ∈ vertIds g ∧ dest ∈ vertIds g ∧ 0 ≤ w ∧ src ≠ dest then
    if (src, dest) ∈ g.edges.map (fun e => (e.1, e.2.1)) then
      { g with edges := g.edges.map (fun e =>
          if e.1 = src ∧ e.2.1 = dest then (src, dest, w) else e) }
    else { g with edges := g.edges ++ [(src, dest, w)] }
  else g

/-- The two loading loops of load_from_json (lines 35-41): add every node,
then every edge, into the held graph. -/
def loadDoc (g : DiGraph) (doc : JsonDoc) : DiGraph :=
  doc.edgesJ.foldl (fun h e => add_edge h e.1 e.2.1 e.2.2)
    (doc.nodesJ.foldl (fun h n => add_node h n.1 n.2) g)

/-- load_from_json (lines 25-47).  The try block catches every exception
and returns False, but the finally clause then runs file.close(); when
open itself raised, the local variable file was never bound, so the
finally clause raises UnboundLocalError, which replaces the pending
return False.  When json.load or the loops raised, file is bound (and
already closed by the with block), so False is returned. -/
def load_from_json (g : DiGraph) (input : LoadInput) :
    PyOutcome Bool × DiGraph :=
  match input with
  | LoadInput.missing => (PyOutcome.exc ("UnboundLocalError"), g)
  | LoadInput.parseError => (PyOutcome.ret false, g)
  | LoadInput.parsed doc => (PyOutcome.ret true, loadDoc g doc)

/-- The document emitted by save_to_json (lines 56-74): every node with
its position when set, and the out-edges grouped by source vertex. -/
def saveDoc (g : DiGraph) : JsonDoc :=
  { nodesJ := g.nodes,
    edgesJ := (vertIds g).flatMap
      (fun v => (all_out_edges_of_node g v).map (fun dw => (v, dw.1, dw.2))) }

/-- save_to_json (lines 50-80).  The call open(file_name, w) stands
outside the try block, so a failure to open the file propagates as an
uncaught OSError; otherwise the document is dumped and True returned. -/
def save_to_json (g : DiGraph) (canOpen : Bool) : PyOutcome Bool × Option JsonDoc :=
  if canOpen then (PyOutcome.ret true, some (saveDoc g))
  else (PyOutcome.exc ("OSError"), none)

/-! ## Concrete graphs used by the claims -/

def emptyG : DiGraph := ⟨[], []⟩

/-- The worked example of the spec: vertices 0,1,2 and edges (0,1,1),
(1,2,4). -/
def gEx : DiGraph := ⟨[(0, none), (1, none), (2, none)], [(0, 1, 1), (1, 2, 4)]⟩

/-- A single isolated vertex. -/
def gIso : DiGraph := ⟨[(0, none)], []⟩

/-- Two vertices, no edges: 1 unreachable from 0. -/
def gUnreach : DiGraph := ⟨[(0, none), (1, none)], []⟩

/-- A zero-weight edge followed by a positive edge. -/
def gZero : DiGraph := ⟨[(0, none), (1, none), (2, none)], [(0, 1, 0), (1, 2, 1)]⟩

/-- A graph with one positioned vertex, for the persistence round trip. -/
def gPos : DiGraph := ⟨[(0, some (1, 2, 3)), (1, none)], [(0, 1, 2)]⟩

/-- The saved document of gPos with both record lists reversed: a
nontrivial reordering of the file. -/
def docPosRev : JsonDoc :=
  ⟨(saveDoc gPos).nodesJ.reverse, (saveDoc gPos).edgesJ.reverse⟩

/-! ## Proof apparatus for the Dijkstra loop -/

/-- z can be walked back to s along predecessor links. -/
inductive PrevReaches (pm : Nat → Option Nat) (s : Nat) : Nat → Prop where
  | base : PrevReaches pm s s
  | step : ∀ {z u : Nat}, pm z = some u → PrevReaches pm s u → PrevReaches pm s z

/-- The duplicate-free predecessor chain from z down to s: the list of
vertices visited when following predecessor links. -/
inductive ChainTo (pm : Nat → Option Nat) (s : Nat) : Nat → List Nat → Prop where
  | base : ChainTo pm s s [s]
  | step : ∀ {z u : Nat} {l : List Nat},
      pm z = some u → ChainTo pm s u l → z ∉ l → ChainTo pm s z (z :: l)

/-- p is a simple (duplicate-free) path from s to v. -/
def SPathTo (g : DiGraph) (s v : Nat) (p : List Nat) : Prop :=
  p.head? = some s ∧ p.getLast? = some v ∧ chainB g p = true ∧ p.Nodup

/-- Every nonempty prefix of p ends at a vertex whose tag is at most the
weight of that prefix. -/
def PBound (g : DiGraph) (st : DState) (p : List Nat) : Prop :=
  ∀ q z, q ≠ [] → q <+: p → q.getLast? = some z → st.tag z ≤ ((pathW g q : ℚ) : W)

/-- The invariant of the relaxation loop (everything except the
heap-or-relaxed property, which is only restored at the end of each
pop). -/
structure DInvCore (g : DiGraph) (s : Nat) (st : DState) : Prop where
  tagS : st.tag s = 0
  tagNN : ∀ z, (0 : W) ≤ st.tag z
  prevEdge : ∀ z u, st.prevM z = some u →
    ∃ w, (z, w) ∈ all_out_edges_of_node g u ∧ st.tag u + ((w : ℚ) : W) ≤ st.tag z
  reach : ∀ z, st.tag z < ⊤ → PrevReaches st.prevM s z
  spw : ∀ v, st.tag v < ⊤ →
    ∃ p, SPathTo g s v p ∧ ((pathW g p : ℚ) : W) = st.tag v ∧ PBound g st p
  visNil : st.visitedL = []

/-- v is fully relaxed: no outgoing edge offers an improvement. -/
def Relaxed (g : DiGraph) (st : DState) (v : Nat) : Prop :=
  ∀ zw ∈ all_out_edges_of_node g v, st.tag zw.1 ≤ st.tag v + ((zw.2 : ℚ) : W)

/-- The full loop invariant: the core plus heap-or-relaxed. -/
structure DInv (g : DiGraph) (s : Nat) (st : DState) : Prop where
  core : DInvCore g s st
  hr : ∀ v, st.tag v < ⊤ → (∃ k, (k, v) ∈ st.heap) ∨ Relaxed g st v

/-- The state after a successful relaxation of the edge from v to z with
new tag value alt: the shape of the then-branch of relaxStep. -/
def relaxUpd (v : Nat) (st : DState) (z : Nat) (alt : W) : DState :=
  { tag := fun x => if x = z then alt else st.tag x,
    prevM := fun x => if x = z then some v else st.prevM x,
    heap := st.heap ++ [(alt, z)],
    visitedL := st.visitedL }

/-- All simple paths from cur whose later vertices avoid the list avoid,
of length at most fuel edges.  Enumeration only; used to bound the number
of values a tag can take. -/
def pathsFromAux (g : DiGraph) : Nat → Nat → List Nat → List (List Nat)
  | 0, cur, _ => [[cur]]
  | n + 1, cur, avoid =>
    [cur] :: (all_out_edges_of_node g cur).flatMap
      (fun zw =>
        if zw.1 ∈ avoid then []
        else (pathsFromAux g n zw.1 (zw.1 :: avoid)).map (fun p => cur :: p))

/-- The weights of the enumerated simple paths from s ending at v. -/
def SPWlist (g : DiGraph) (s v : Nat) : List ℚ :=
  ((pathsFromAux g g.nodes.length s [s]).filterMap
    (fun p => if p.getLast? = some v then some (pathW g p) else none)).dedup

/-- How many enumerated simple-path weights lie strictly below the tag of
v: the number of times the tag of v can still strictly decrease. -/
def phiV (g : DiGraph) (s v : Nat) (t : W) : Nat :=
  ((SPWlist g s v).filter (fun q => decide (((q : ℚ) : W) < t))).length

/-- The total remaining-decrease count over all vertices. -/
def phiTot (g : DiGraph) (s : Nat) (st : DState) : Nat :=
  ((vertIds g).map (fun v => phiV g s v (st.tag v))).sum

/-- The termination measure of the while-loop: heap size plus remaining
tag decreases.  Each pop removes one entry, and each push is paid for by a
strict tag decrease. -/
def measureD (g : DiGraph) (s : Nat) (st : DState) : Nat :=
  st.heap.length + phiTot g s st

/-! ## Claim theorems: error handling and component bugs -/

/-- C9: when the source or the target vertex is absent from the graph,
shortest_path returns the sentinel None (modelled ok none) and raises no
exception, for every graph and every fuel. -/
theorem spec_C9 (g : DiGraph) (id1 id2 fuel : Nat)
    (h : id1 ∉ vertIds g ∨ id2 ∉ vertIds g) :
    shortest_path g id1 id2 fuel = Except.ok none := by
  unfold shortest_path
  rw [if_neg]
  intro hc
  rcases h with h | h
  · exact h hc.1
  · exact h hc.2

unseal Rat.add in
/-- Witness for spec_C9: vertex 3 is absent from the example graph, and
the call returns the sentinel. -/
theorem spec_C9_witness :
    (3 ∉ vertIds gEx ∨ 1 ∉ vertIds gEx) ∧
      shortest_path gEx 3 1 10 = Except.ok none :=
  ⟨Or.inl (by decide), spec_C9 gEx 3 1 10 (Or.inl (by decide))⟩

unseal Rat.add in
/-- C2: evaluation at the failing input.  On the two-vertex edgeless graph
the target 1 is unreachable from 0, and shortest_path raises KeyError in
the reconstruction loop (prev_nodes has no entry for 1) instead of
returning (infinity, []). -/
theorem spec_C2_eval :
    shortest_path gUnreach 0 1 10 = Except.error ("KeyError") ∧
      (0 ∈ vertIds gUnreach ∧ 1 ∈ vertIds gUnreach) ∧ ¬ Reachable gUnreach 0 1 := by
  refine ⟨by decide, by decide, ?_⟩
  rintro ⟨p, h1, h2, h3⟩
  match p, h1 with
  | x :: r, h1 =>
    have hx : x = 0 := by simpa using h1
    subst hx
    match r, h2, h3 with
    | [], h2, _ => simp at h2
    | y :: r2, _, h3 =>
      have : hasEdgeB gUnreach 0 y = true := by
        have := h3
        unfold chainB at this
        exact (Bool.and_eq_true_iff.mp this).1
      simp [hasEdgeB, all_out_edges_of_node, gUnreach] at this

/-- C3: evaluation at the failing input.  On the one-vertex graph,
connected_components does not return a partition of the vertex set at
all: the first connected_component call raises TypeError (the operator &
applied to two lists), which the loop propagates. -/
theorem spec_C3_eval :
    connected_components gIso = Except.error ("TypeError") ∧
      vertIds gIso = [0] := by
  constructor <;> rfl

/-- C4: evaluation at the failing input.  For the isolated vertex 0,
connected_component does not report the singleton: line 155 applies & to
the two BFS result lists, so the call raises TypeError. -/
theorem spec_C4_eval :
    connected_component gIso 0 = Except.error ("TypeError") ∧
      0 ∈ vertIds gIso := by
  constructor
  · rfl
  · decide

/-- C7: evaluation at the failing inputs.  Loading a missing file raises
UnboundLocalError out of the finally clause instead of returning False,
and saving to an unopenable path propagates the OSError raised by open,
which stands outside the try block. -/
theorem spec_C7_eval :
    (load_from_json emptyG LoadInput.missing).1 = PyOutcome.exc ("UnboundLocalError") ∧
      (save_to_json emptyG false).1 = PyOutcome.exc ("OSError") := by
  constructor <;> rfl

unseal Rat.add in
/-- C5 counterexample: in the zero-weight graph, 2 is reachable from the
source 0, yet the returned path [1, 2] does not begin at the source: the
reconstruction loop stops at the first vertex whose tag is zero (here 1),
not at the source. -/
theorem spec_C5_counterexample :
    IsPathFrom gZero 0 2 [0, 1, 2] ∧
      shortest_path gZero 0 2 10 = Except.ok (some ((1 : W), [1, 2])) ∧
      ([1, 2] : List Nat).head? ≠ some 0 := by
  refine ⟨by decide, by decide, by decide⟩

lemma mem_all_out {g : DiGraph} {v z : Nat} {w : ℚ} :
    (z, w) ∈ all_out_edges_of_node g v ↔ (v, z, w) ∈ g.edges := by
  unfold all_out_edges_of_node
  rw [List.mem_filterMap]
  constructor
  · rintro ⟨⟨a, b, c⟩, he, hf⟩
    dsimp only at hf
    by_cases h : a = v
    · subst h
      rw [if_pos rfl] at hf
      injection hf with h2
      injection h2 with h3 h4
      subst h3; subst h4; exact he
    · rw [if_neg h] at hf
      exact absurd hf (by simp)
  · intro he
    exact ⟨(v, z, w), he, by simp⟩

lemma filterMap_out (v : Nat) (l : List (Nat × Nat × ℚ)) :
    l.filterMap (fun e => if e.1 = v then some (e.2.1, e.2.2) else none)
      = (l.filter (fun e => e.1 == v)).map (fun e => (e.2.1, e.2.2)) := by
  induction l with
  | nil => rfl
  | cons e t ih =>
    by_cases h : e.1 = v
    · simp [List.filterMap_cons, List.filter_cons, h, ih]
    · simp [List.filterMap_cons, List.filter_cons, h, ih]

lemma all_out_fst_nodup {g : DiGraph} (hWF : WFGraph g) (v : Nat) :
    ((all_out_edges_of_node g v).map Prod.fst).Nodup := by
  unfold all_out_edges_of_node
  rw [filterMap_out, List.map_map]
  have hsub : (g.edges.filter (fun e => e.1 == v)).Sublist g.edges :=
    List.filter_sublist _
  have hedges : g.edges.Nodup := List.Nodup.of_map _ hWF.2.1
  have hinj := List.inj_on_of_nodup_map hWF.2.1
  refine List.Nodup.map_on ?_ (hsub.nodup hedges)
  intro x hx y hy hxy
  have hxv : x.1 = v := by simpa using (List.mem_filter.mp hx).2
  have hyv : y.1 = v := by simpa using (List.mem_filter.mp hy).2
  refine hinj (hsub.mem hx) (hsub.mem hy) ?_
  simp only [Function.comp] at hxy
  rw [Prod.mk.injEq]
  exact ⟨hxv.trans hyv.symm, hxy⟩

lemma find_fst_eq {l : List (Nat × ℚ)} {z : Nat} {w : ℚ}
    (hnd : (l.map Prod.fst).Nodup) (hm : (z, w) ∈ l) :
    l.find? (fun dw => dw.1 == z) = some (z, w) := by
  induction l with
  | nil => cases hm
  | cons a t ih =>
    rcases List.mem_cons.mp hm with h | h
    · subst h
      simp [List.find?_cons]
    · have hz : z ∈ t.map Prod.fst := List.mem_map.mpr ⟨(z, w), h, rfl⟩
      rw [List.map_cons] at hnd
      have hnd2 := List.nodup_cons.mp hnd
      have ha : ((fun dw : Nat × ℚ => dw.1 == z) a) = false := by
        rw [beq_eq_false_iff_ne]
        intro hb
        exact hnd2.1 (hb ▸ hz)
      rw [List.find?_cons_of_neg _ (by simp [ha])]
      exact ih hnd2.2 h

lemma edgeW_eq {g : DiGraph} {v z : Nat} {w : ℚ} (hWF : WFGraph g)
    (hm : (z, w) ∈ all_out_edges_of_node g v) : edgeW g v z = w := by
  unfold edgeW
  rw [find_fst_eq (all_out_fst_nodup hWF v) hm]

lemma edge_w_nonneg {g : DiGraph} {v z : Nat} {w : ℚ} (hWF : WFGraph g)
    (hm : (z, w) ∈ all_out_edges_of_node g v) : 0 ≤ w :=
  (hWF.2.2 _ (mem_all_out.mp hm)).2.2.1

lemma edge_dest_mem {g : DiGraph} {v z : Nat} {w : ℚ} (hWF : WFGraph g)
    (hm : (z, w) ∈ all_out_edges_of_node g v) : z ∈ vertIds g :=
  (hWF.2.2 _ (mem_all_out.mp hm)).2.1

lemma edge_src_mem {g : DiGraph} {v z : Nat} {w : ℚ} (hWF : WFGraph g)
    (hm : (z, w) ∈ all_out_edges_of_node g v) : v ∈ vertIds g :=
  (hWF.2.2 _ (mem_all_out.mp hm)).1

lemma hasEdgeB_iff {g : DiGraph} {u y : Nat} :
    hasEdgeB g u y = true ↔ ∃ w, (y, w) ∈ all_out_edges_of_node g u := by
  unfold hasEdgeB
  rw [List.any_eq_true]
  constructor
  · rintro ⟨⟨d, w⟩, hm, hb⟩
    have hd : d = y := by simpa using hb
    subst hd
    exact ⟨w, hm⟩
  · rintro ⟨w, hm⟩
    exact ⟨(y, w), hm, by simp⟩

lemma prevReaches_update {pm : Nat → Option Nat} {s y u : Nat}
    (hy : PrevReaches (fun x => if x = y then some u else pm x) s y) :
    ∀ z, PrevReaches pm s z →
      PrevReaches (fun x => if x = y then some u else pm x) s z := by
  intro z hz
  induction hz with
  | base => exact PrevReaches.base
  | @step z2 u2 hpz _ ih =>
    by_cases h : z2 = y
    · subst h; exact hy
    · exact PrevReaches.step (show (if z2 = y then some u else pm z2) = some u2 by
        rw [if_neg h]; exact hpz) ih

lemma prevReaches_avoid {pm : Nat → Option Nat} {s : Nat} {tag : Nat → W}
    (hmono : ∀ x v2, pm x = some v2 → tag v2 ≤ tag x) (y u : Nat) (c : W)
    (hcy : c ≤ tag y) :
    ∀ x, PrevReaches pm s x → tag x < c →
      PrevReaches (fun t => if t = y then some u else pm t) s x := by
  intro x hx
  induction hx with
  | base => intro _; exact PrevReaches.base
  | @step z2 u2 hpz hrec ih =>
    intro hlt
    have hne : z2 ≠ y := by
      intro he
      exact absurd (lt_of_lt_of_le hlt hcy) (by rw [he]; exact lt_irrefl _)
    exact PrevReaches.step (show (if z2 = y then some u else pm z2) = some u2 by
      rw [if_neg hne]; exact hpz) (ih (lt_of_le_of_lt (hmono _ _ hpz) hlt))

lemma chainB_singleton (g : DiGraph) (x : Nat) : chainB g [x] = true := rfl

lemma chainB_cons_cons {g : DiGraph} {x y : Nat} {r : List Nat} :
    chainB g (x :: y :: r) = true ↔
      hasEdgeB g x y = true ∧ chainB g (y :: r) = true := by
  show (hasEdgeB g x y && chainB g (y :: r)) = true ↔ _
  exact Bool.and_eq_true_iff

lemma chainB_of_pref {g : DiGraph} : ∀ q p : List Nat, q <+: p →
    chainB g p = true → chainB g q = true := by
  intro q
  induction q with
  | nil => intro p _ _; rfl
  | cons a q2 ih =>
    intro p hpre hp
    match q2, hpre with
    | [], _ => rfl
    | b :: q3, hpre =>
      obtain ⟨t, ht⟩ := hpre
      subst ht
      rw [List.cons_append, List.cons_append] at hp
      rw [chainB_cons_cons] at hp ⊢
      refine ⟨hp.1, ih (b :: (q3 ++ t)) ⟨t, by simp⟩ ?_⟩
      exact hp.2

lemma chainB_concat {g : DiGraph} {p : List Nat} {v z : Nat}
    (hc : chainB g p = true) (hl : p.getLast? = some v)
    (he : hasEdgeB g v z = true) : chainB g (p ++ [z]) = true := by
  induction p with
  | nil => cases hl
  | cons a t ih =>
    match t, hl, hc with
    | [], hl, _ =>
      have ha : a = v := by simpa using hl
      rw [ha]
      show chainB g [v, z] = true
      rw [chainB_cons_cons]
      exact ⟨he, rfl⟩
    | b :: t2, hl, hc =>
      rw [chainB_cons_cons] at hc
      show chainB g (a :: b :: (t2 ++ [z])) = true
      rw [chainB_cons_cons]
      exact ⟨hc.1, ih hc.2 (by simpa using hl)⟩

lemma pathW_nonneg {g : DiGraph} (hWF : WFGraph g) :
    ∀ p : List Nat, chainB g p = true → 0 ≤ pathW g p := by
  intro p
  induction p with
  | nil => intro _; exact le_refl 0
  | cons a t ih =>
    match t with
    | [] => intro _; exact le_refl 0
    | b :: t2 =>
      intro hc
      rw [chainB_cons_cons] at hc
      obtain ⟨w, hw⟩ := hasEdgeB_iff.mp hc.1
      have h0 : 0 ≤ edgeW g a b := by
        rw [edgeW_eq hWF hw]; exact edge_w_nonneg hWF hw
      have := ih hc.2
      unfold pathW
      exact add_nonneg h0 this

lemma pathW_pref_le {g : DiGraph} (hWF : WFGraph g) :
    ∀ q p : List Nat, q <+: p → chainB g p = true →
      pathW g q ≤ pathW g p := by
  intro q
  induction q with
  | nil =>
    intro p _ hp
    exact pathW_nonneg hWF p hp
  | cons a q2 ih =>
    intro p hpre hp
    match q2, hpre with
    | [], hpre =>
      obtain ⟨t, ht⟩ := hpre
      subst ht
      match t with
      | [] => exact le_refl _
      | c :: t2 =>
        show pathW g [a] ≤ pathW g (a :: c :: t2)
        rw [show pathW g [a] = 0 from rfl]
        exact pathW_nonneg hWF _ hp
    | b :: q3, hpre =>
      obtain ⟨t, ht⟩ := hpre
      subst ht
      rw [List.cons_append, List.cons_append] at hp ⊢
      rw [chainB_cons_cons] at hp
      show edgeW g a b + pathW g (b :: q3) ≤ edgeW g a b + pathW g (b :: (q3 ++ t))
      exact add_le_add_left (ih (b :: (q3 ++ t)) ⟨t, by simp⟩ hp.2) _

lemma pathW_concat {g : DiGraph} {p : List Nat} {v z : Nat}
    (hl : p.getLast? = some v) :
    pathW g (p ++ [z]) = pathW g p + edgeW g v z := by
  induction p with
  | nil => cases hl
  | cons a t ih =>
    match t, hl with
    | [], hl =>
      have ha : a = v := by simpa using hl
      rw [← ha]
      show edgeW g a z + pathW g [z] = pathW g [a] + edgeW g a z
      show edgeW g a z + 0 = 0 + edgeW g a z
      rw [add_zero, zero_add]
    | b :: t2, hl =>
      have ih2 := ih (by simpa using hl)
      show edgeW g a b + pathW g ((b :: t2) ++ [z])
          = edgeW g a b + pathW g (b :: t2) + edgeW g v z
      rw [ih2, add_assoc]

lemma mem_prefix_last {x : Nat} : ∀ {p : List Nat}, x ∈ p →
    ∃ q, q <+: p ∧ q ≠ [] ∧ q.getLast? = some x := by
  intro p hm
  induction p with
  | nil => cases hm
  | cons a t ih =>
    rcases List.mem_cons.mp hm with h | h
    · subst h
      exact ⟨[x], ⟨t, rfl⟩, by simp, rfl⟩
    · obtain ⟨q, hq1, hq2, hq3⟩ := ih h
      obtain ⟨t2, ht2⟩ := hq1
      refine ⟨a :: q, ⟨t2, by rw [List.cons_append, ht2]⟩, by simp, ?_⟩
      cases q with
      | nil => cases hq2 rfl
      | cons c r => rw [List.getLast?_cons_cons]; exact hq3

lemma prefix_concat_cases {q p : List Nat} {z : Nat} (h : q <+: p ++ [z]) :
    q <+: p ∨ q = p ++ [z] :=
  (List.prefix_concat_iff.mp h).symm

lemma relaxStep_eq {g : DiGraph} {v : Nat} {st : DState} {zw : Nat × ℚ}
    (hvis : st.visitedL = []) (hmem : zw ∈ all_out_edges_of_node g v) :
    relaxStep g v st zw =
      if st.tag v + ((zw.2 : ℚ) : W) < st.tag zw.1 then
        relaxUpd v st zw.1 (st.tag v + ((zw.2 : ℚ) : W))
      else st := by
  unfold relaxStep relaxUpd
  rw [if_neg (by rw [hvis]; simp)]
  rw [if_pos (List.elem_eq_true_of_mem (List.mem_map.mpr ⟨zw, hmem, rfl⟩))]

lemma tag_mono_of_core {g : DiGraph} {s : Nat} {st : DState}
    (hWF : WFGraph g) (hcore : DInvCore g s st) :
    ∀ x v2, st.prevM x = some v2 → st.tag v2 ≤ st.tag x := by
  intro x v2 hx
  obtain ⟨w2, hm2, hle2⟩ := hcore.prevEdge x v2 hx
  have h0 : (0 : W) ≤ ((w2 : ℚ) : W) := by
    exact_mod_cast edge_w_nonneg hWF hm2
  calc st.tag v2 ≤ st.tag v2 + ((w2 : ℚ) : W) := le_add_of_nonneg_right h0
    _ ≤ st.tag x := hle2

lemma pbound_of_tag_le {g : DiGraph} {st st2 : DState} {p : List Nat}
    (hle : ∀ x, st2.tag x ≤ st.tag x) (hpb : PBound g st p) : PBound g st2 p := by
  intro q y hq hqp hql
  exact le_trans (hle y) (hpb q y hq hqp hql)

lemma relaxStep_main {g : DiGraph} {s v : Nat} {st : DState} {zw : Nat × ℚ}
    (hWF : WFGraph g) (hmem : zw ∈ all_out_edges_of_node g v)
    (hcore : DInvCore g s st) :
    DInvCore g s (relaxStep g v st zw) ∧
      (∀ x, (relaxStep g v st zw).tag x ≤ st.tag x) ∧
      (relaxStep g v st zw).tag v = st.tag v ∧
      (∀ e, e ∈ st.heap → e ∈ (relaxStep g v st zw).heap) ∧
      (relaxStep g v st zw).tag zw.1 ≤ (relaxStep g v st zw).tag v + ((zw.2 : ℚ) : W) ∧
      (∀ x, (relaxStep g v st zw).tag x ≠ st.tag x →
        ∃ k, (k, x) ∈ (relaxStep g v st zw).heap) := by
  obtain ⟨z, w⟩ := zw
  rw [relaxStep_eq hcore.visNil hmem]
  dsimp only
  by_cases hlt : st.tag v + ((w : ℚ) : W) < st.tag z
  swap
  · rw [if_neg hlt]
    exact ⟨hcore, fun x => le_refl _, rfl, fun e he => he, not_lt.mp hlt,
      fun x hx => absurd rfl hx⟩
  rw [if_pos hlt]
  unfold relaxUpd
  have hw0 : 0 ≤ w := edge_w_nonneg hWF hmem
  have hw0W : (0 : W) ≤ ((w : ℚ) : W) := by exact_mod_cast hw0
  have htagv_fin : st.tag v < ⊤ := by
    rcases lt_or_ge (st.tag v) ⊤ with h | h
    · exact h
    · exfalso
      have hvtop : st.tag v = ⊤ := le_antisymm le_top h
      rw [hvtop, top_add] at hlt
      exact absurd hlt (not_lt.mpr le_top)
  have halt_fin : st.tag v + ((w : ℚ) : W) < ⊤ := lt_of_lt_of_le hlt le_top
  have halt0 : (0 : W) ≤ st.tag v + ((w : ℚ) : W) :=
    add_nonneg (hcore.tagNN v) hw0W
  have hzs : z ≠ s := by
    intro h
    rw [h, hcore.tagS] at hlt
    exact absurd (lt_of_le_of_lt halt0 hlt) (lt_irrefl _)
  have hzv : z ≠ v := by
    intro h
    rw [h] at hlt
    exact absurd (lt_of_le_of_lt (le_add_of_nonneg_right hw0W) hlt) (lt_irrefl _)
  have htagz_le : ∀ x, (if x = z then st.tag v + ((w : ℚ) : W) else st.tag x) ≤ st.tag x := by
    intro x
    by_cases h : x = z
    · rw [if_pos h, h]; exact le_of_lt hlt
    · rw [if_neg h]
  -- the z-avoiding witness path for v and the non-membership of z in it
  obtain ⟨pv, hsp, hwv, hpb⟩ := hcore.spw v htagv_fin
  obtain ⟨hvhead, hvlast, hvchain, hvnodup⟩ := hsp
  have hznotin : z ∉ pv := by
    intro hzin
    obtain ⟨q, hq1, hq2, hq3⟩ := mem_prefix_last hzin
    have h1 : st.tag z ≤ ((pathW g q : ℚ) : W) := hpb q z hq2 hq1 hq3
    have h2 : pathW g q ≤ pathW g pv := pathW_pref_le hWF q pv hq1 hvchain
    have h3 : ((pathW g q : ℚ) : W) ≤ ((pathW g pv : ℚ) : W) := by exact_mod_cast h2
    have h4 : st.tag z ≤ st.tag v := le_trans h1 (le_trans h3 (le_of_eq hwv))
    exact absurd (lt_of_le_of_lt (le_trans h4 (le_add_of_nonneg_right hw0W)) hlt)
      (lt_irrefl _)
  have hmono := tag_mono_of_core hWF hcore
  have hreach_z : PrevReaches (fun t => if t = z then some v else st.prevM t) s z := by
    have hrv : PrevReaches st.prevM s v := hcore.reach v htagv_fin
    have hrv2 := prevReaches_avoid hmono z v (st.tag z) (le_refl _) v hrv
      (lt_of_le_of_lt (le_add_of_nonneg_right hw0W) hlt)
    exact PrevReaches.step (by rw [if_pos rfl]) hrv2
  refine ⟨⟨?_, ?_, ?_, ?_, ?_, hcore.visNil⟩, htagz_le, ?_, ?_, ?_, ?_⟩
  -- tagS
  · dsimp only
    rw [if_neg (Ne.symm hzs)]
    exact hcore.tagS
  -- tagNN
  · intro x
    dsimp only
    by_cases h : x = z
    · rw [if_pos h]; exact halt0
    · rw [if_neg h]; exact hcore.tagNN x
  -- prevEdge
  · intro x u hx
    dsimp only at hx ⊢
    by_cases h : x = z
    · rw [if_pos h] at hx
      injection hx with hu
      subst hu
      refine ⟨w, ?_, ?_⟩
      · rw [h]; exact hmem
      · rw [if_neg (Ne.symm hzv), if_pos h]
    · rw [if_neg h] at hx
      obtain ⟨w2, hm2, hle2⟩ := hcore.prevEdge x u hx
      refine ⟨w2, hm2, ?_⟩
      rw [if_neg h]
      exact le_trans (add_le_add_right (htagz_le u) _) hle2
  -- reach
  · intro x hx
    dsimp only at hx ⊢
    by_cases h : x = z
    · rw [h]; exact hreach_z
    · rw [if_neg h] at hx
      exact prevReaches_update hreach_z x (hcore.reach x hx)
  -- spw
  · intro x hx
    dsimp only at hx ⊢
    by_cases h : x = z
    · subst h
      refine ⟨pv ++ [x], ⟨?_, ?_, ?_, ?_⟩, ?_, ?_⟩
      · rw [List.head?_append, hvhead]; rfl
      · exact List.getLast?_concat pv
      · exact chainB_concat hvchain hvlast (hasEdgeB_iff.mpr ⟨w, hmem⟩)
      · rw [List.nodup_append]
        exact ⟨hvnodup, List.nodup_singleton _, fun a ha ha2 => hznotin
          ((by simpa using ha2 : a = x) ▸ ha)⟩
      · dsimp only
        rw [if_pos rfl, pathW_concat hvlast, edgeW_eq hWF hmem]
        push_cast
        rw [hwv]
      · intro q y hq hqp hql
        dsimp only
        rcases prefix_concat_cases hqp with hcase | hcase
        · have hy_in : y ∈ pv := hcase.subset (List.mem_of_getLast?_eq_some hql)
          have hyz : y ≠ x := fun he => hznotin (he ▸ hy_in)
          rw [if_neg hyz]
          exact hpb q y hq hcase hql
        · subst hcase
          rw [List.getLast?_concat] at hql
          injection hql with hy
          subst hy
          rw [if_pos rfl, pathW_concat hvlast, edgeW_eq hWF hmem]
          push_cast
          rw [hwv]
    · rw [if_neg h] at hx
      obtain ⟨px, spx, hwx, hpbx⟩ := hcore.spw x hx
      refine ⟨px, spx, ?_, ?_⟩
      · rw [if_neg h]; exact hwx
      · exact pbound_of_tag_le htagz_le hpbx
  -- tag v unchanged
  · dsimp only
    rw [if_neg (Ne.symm hzv)]
  -- heap entries preserved
  · intro e he
    dsimp only
    exact List.mem_append_left _ he
  -- processed edge relaxed
  · dsimp only
    rw [if_pos rfl, if_neg (Ne.symm hzv)]
  -- changed tag has heap entry
  · intro x hx
    dsimp only at hx ⊢
    by_cases h : x = z
    · subst h
      exact ⟨st.tag v + ((w : ℚ) : W), List.mem_append_right _ (by simp)⟩
    · rw [if_neg h] at hx
      exact absurd rfl hx

lemma nodup_subset_length {l l2 : List Nat} (hnd : l.Nodup) (hsub : ∀ x ∈ l, x ∈ l2) :
    l.length ≤ l2.length := by
  have h1 : l.toFinset.card = l.length := List.toFinset_card_of_nodup hnd
  have h2 : l.toFinset ⊆ l2.toFinset := by
    intro x hx
    rw [List.mem_toFinset] at hx ⊢
    exact hsub x hx
  calc l.length = l.toFinset.card := h1.symm
    _ ≤ l2.toFinset.card := Finset.card_le_card h2
    _ ≤ l2.length := l2.toFinset_card_le

lemma chain_tail_mem_verts {g : DiGraph} (hWF : WFGraph g) :
    ∀ (r : List Nat) (c : Nat), chainB g (c :: r) = true → ∀ x ∈ r, x ∈ vertIds g := by
  intro r
  induction r with
  | nil => intro c _ x hx; cases hx
  | cons y r2 ih =>
    intro c hc x hx
    rw [chainB_cons_cons] at hc
    obtain ⟨w, hw⟩ := hasEdgeB_iff.mp hc.1
    rcases List.mem_cons.mp hx with h | h
    · subst h; exact edge_dest_mem hWF hw
    · exact ih y hc.2 x h

lemma pathsFromAux_complete (g : DiGraph) :
    ∀ (rest : List Nat) (cur : Nat) (avoid : List Nat) (n : Nat),
      chainB g (cur :: rest) = true → (cur :: rest).Nodup →
      (∀ x ∈ rest, x ∉ avoid) → rest.length ≤ n →
      (cur :: rest) ∈ pathsFromAux g n cur avoid := by
  intro rest
  induction rest with
  | nil =>
    intro cur avoid n _ _ _ _
    match n with
    | 0 => exact List.mem_singleton.mpr rfl
    | m + 1 => exact List.mem_cons_self _ _
  | cons y r ih =>
    intro cur avoid n hc hnd hav hlen
    match n with
    | 0 => simp at hlen
    | m + 1 =>
      rw [chainB_cons_cons] at hc
      obtain ⟨w, hw⟩ := hasEdgeB_iff.mp hc.1
      refine List.mem_cons.mpr (Or.inr ?_)
      rw [List.mem_flatMap]
      refine ⟨(y, w), hw, ?_⟩
      rw [if_neg (hav y (List.mem_cons_self _ _))]
      rw [List.mem_map]
      refine ⟨y :: r, ?_, rfl⟩
      have hnd2 := List.nodup_cons.mp hnd
      refine ih y (y :: avoid) m hc.2 hnd2.2 ?_ (by simpa using hlen)
      intro x hx
      rw [List.mem_cons]
      rintro (h | h)
      · exact (List.nodup_cons.mp hnd2.2).1 (h ▸ hx)
      · exact hav x (List.mem_cons_of_mem _ hx) h

lemma spathTo_weight_mem {g : DiGraph} {s z : Nat} {p : List Nat}
    (hWF : WFGraph g) (hs : s ∈ vertIds g) (hsp : SPathTo g s z p) :
    pathW g p ∈ SPWlist g s z := by
  obtain ⟨hhead, hlast, hchain, hnodup⟩ := hsp
  match p, hhead with
  | c :: rest, hhead =>
    have hcs : c = s := by simpa using hhead
    subst hcs
    have hmem : (c :: rest) ∈ pathsFromAux g g.nodes.length c [c] := by
      refine pathsFromAux_complete g rest c [c] g.nodes.length hchain hnodup ?_ ?_
      · intro x hx
        rw [List.mem_singleton]
        intro h
        exact (List.nodup_cons.mp hnodup).1 (h ▸ hx)
      · have hsubv : ∀ x ∈ rest, x ∈ vertIds g := chain_tail_mem_verts hWF rest c hchain
        have : rest.length ≤ (vertIds g).length :=
          nodup_subset_length (List.nodup_cons.mp hnodup).2 hsubv
        unfold vertIds at this
        simpa using this
    unfold SPWlist
    rw [List.mem_dedup, List.mem_filterMap]
    exact ⟨c :: rest, hmem, by rw [if_pos hlast]⟩

lemma countP_strict {q0 : ℚ} {P Q : ℚ → Bool} :
    ∀ l : List ℚ, q0 ∈ l → (∀ a, P a = true → Q a = true) →
      P q0 = false → Q q0 = true →
      (l.filter P).length < (l.filter Q).length := by
  intro l
  induction l with
  | nil => intro h; cases h
  | cons b t ih =>
    intro hmem himp hP hQ
    rw [List.filter_cons, List.filter_cons]
    rcases List.mem_cons.mp hmem with h | h
    · subst h
      rw [if_neg (by simp [hP]), if_pos (by simp [hQ])]
      simp only [List.length_cons]
      have hle : (t.filter P).length ≤ (t.filter Q).length := by
        rw [← List.countP_eq_length_filter, ← List.countP_eq_length_filter]
        exact List.countP_mono_left (fun x _ hx => himp x hx)
      omega
    · have hlt := ih h himp hP hQ
      by_cases hb : P b = true
      · rw [if_pos (by simp [hb]), if_pos (by simp [himp b hb])]
        simpa using hlt
      · rw [Bool.not_eq_true] at hb
        rw [if_neg (by simp [hb])]
        by_cases hqb : Q b = true
        · rw [if_pos (by simp [hqb])]
          simp only [List.length_cons]
          omega
        · rw [Bool.not_eq_true] at hqb
          rw [if_neg (by simp [hqb])]
          exact hlt

lemma relaxUpd_tag (v : Nat) (st : DState) (z : Nat) (alt : W) (x : Nat) :
    (relaxUpd v st z alt).tag x = if x = z then alt else st.tag x := rfl

lemma relaxUpd_heap_len (v : Nat) (st : DState) (z : Nat) (alt : W) :
    (relaxUpd v st z alt).heap.length = st.heap.length + 1 := by
  unfold relaxUpd
  dsimp only
  rw [List.length_append]
  rfl

lemma sum_map_le {f f2 : Nat → Nat} :
    ∀ l : List Nat, (∀ v ∈ l, f2 v ≤ f v) → (l.map f2).sum ≤ (l.map f).sum := by
  intro l
  induction l with
  | nil => intro _; exact le_refl _
  | cons b t ih =>
    intro hle
    rw [List.map_cons, List.map_cons, List.sum_cons, List.sum_cons]
    have h1 := ih (fun v hv => hle v (List.mem_cons_of_mem _ hv))
    have h2 := hle b (List.mem_cons_self _ _)
    omega

lemma sum_map_lt {z : Nat} {f f2 : Nat → Nat} :
    ∀ l : List Nat, (∀ v ∈ l, f2 v ≤ f v) → z ∈ l → f2 z < f z →
      (l.map f2).sum < (l.map f).sum := by
  intro l
  induction l with
  | nil => intro _ h; cases h
  | cons b t ih =>
    intro hle hmem hlt
    rw [List.map_cons, List.map_cons, List.sum_cons, List.sum_cons]
    rcases List.mem_cons.mp hmem with h | h
    · subst h
      have h2 := sum_map_le t (fun v hv => hle v (List.mem_cons_of_mem _ hv))
      omega
    · have h1 := ih (fun v hv => hle v (List.mem_cons_of_mem _ hv)) h hlt
      have h2 : f2 b ≤ f b := hle b (List.mem_cons_self _ _)
      omega

lemma phiV_mono {g : DiGraph} {s z : Nat} {t t2 : W} (h : t2 ≤ t) :
    phiV g s z t2 ≤ phiV g s z t := by
  unfold phiV
  rw [← List.countP_eq_length_filter, ← List.countP_eq_length_filter]
  refine List.countP_mono_left ?_
  intro q _ hq
  rw [decide_eq_true_iff] at hq ⊢
  exact lt_of_lt_of_le hq h

lemma phiV_strict {g : DiGraph} {s z : Nat} {told : W} {q0 : ℚ}
    (hq0 : q0 ∈ SPWlist g s z) (hlt : ((q0 : ℚ) : W) < told) :
    phiV g s z ((q0 : ℚ) : W) < phiV g s z told := by
  unfold phiV
  refine countP_strict (SPWlist g s z) hq0 ?_ ?_ ?_
  · intro a ha
    rw [decide_eq_true_iff] at ha ⊢
    exact lt_trans ha hlt
  · rw [decide_eq_false_iff_not]
    exact lt_irrefl _
  · rw [decide_eq_true_iff]
    exact hlt

lemma relaxStep_measure {g : DiGraph} {s v : Nat} {st : DState} {zw : Nat × ℚ}
    (hWF : WFGraph g) (hs : s ∈ vertIds g)
    (hmem : zw ∈ all_out_edges_of_node g v) (hcore : DInvCore g s st) :
    (relaxStep g v st zw).heap.length + phiTot g s (relaxStep g v st zw)
      ≤ st.heap.length + phiTot g s st := by
  have hmain := relaxStep_main (s := s) hWF hmem hcore
  obtain ⟨z, w⟩ := zw
  rw [relaxStep_eq hcore.visNil hmem] at hmain ⊢
  by_cases hlt : st.tag v + ((w : ℚ) : W) < st.tag z
  swap
  · rw [if_neg hlt]
  rw [if_pos hlt] at hmain ⊢
  dsimp only at hmain ⊢
  obtain ⟨hcore2, htagle, -, -, -, -⟩ := hmain
  have hztag : (relaxUpd v st z (st.tag v + ((w : ℚ) : W))).tag z
      = st.tag v + ((w : ℚ) : W) := by
    rw [relaxUpd_tag, if_pos rfl]
  have hzfin : st.tag v + ((w : ℚ) : W) < ⊤ := lt_of_lt_of_le hlt le_top
  obtain ⟨p, hsp, hwp, -⟩ := hcore2.spw z (by rw [hztag]; exact hzfin)
  rw [hztag] at hwp
  have hq0 : pathW g p ∈ SPWlist g s z := spathTo_weight_mem hWF hs hsp
  have hzverts : z ∈ vertIds g := edge_dest_mem hWF hmem
  have hphi : phiTot g s (relaxUpd v st z (st.tag v + ((w : ℚ) : W))) < phiTot g s st := by
    unfold phiTot
    refine sum_map_lt (vertIds g) ?_ hzverts ?_
    · intro x _
      exact phiV_mono (htagle x)
    · rw [hztag, ← hwp]
      exact phiV_strict hq0 (by rw [hwp]; exact hlt)
  have hlen := relaxUpd_heap_len v st z (st.tag v + ((w : ℚ) : W))
  omega

lemma relaxList_main {g : DiGraph} {s v : Nat} (hWF : WFGraph g) (hs : s ∈ vertIds g) :
    ∀ (l : List (Nat × ℚ)) (st : DState),
      (∀ zw ∈ l, zw ∈ all_out_edges_of_node g v) → DInvCore g s st →
      DInvCore g s (l.foldl (relaxStep g v) st) ∧
      (∀ x, (l.foldl (relaxStep g v) st).tag x ≤ st.tag x) ∧
      (l.foldl (relaxStep g v) st).tag v = st.tag v ∧
      (∀ e ∈ st.heap, e ∈ (l.foldl (relaxStep g v) st).heap) ∧
      (∀ zw ∈ l, (l.foldl (relaxStep g v) st).tag zw.1
        ≤ (l.foldl (relaxStep g v) st).tag v + ((zw.2 : ℚ) : W)) ∧
      (∀ x, (l.foldl (relaxStep g v) st).tag x ≠ st.tag x →
        ∃ k, (k, x) ∈ (l.foldl (relaxStep g v) st).heap) ∧
      (l.foldl (relaxStep g v) st).heap.length + phiTot g s (l.foldl (relaxStep g v) st)
        ≤ st.heap.length + phiTot g s st := by
  intro l
  induction l with
  | nil =>
    intro st _ hcore
    exact ⟨hcore, fun x => le_refl _, rfl, fun e he => he,
      fun zw hzw => absurd hzw (List.not_mem_nil _), fun x hx => absurd rfl hx, le_refl _⟩
  | cons zw t ih =>
    intro st hsub hcore
    rw [List.foldl_cons]
    have hmem := hsub zw (List.mem_cons_self _ _)
    obtain ⟨hcore1, hle1, hv1, hheap1, hrel1, hpush1⟩ :=
      relaxStep_main (s := s) hWF hmem hcore
    have hmeas1 := relaxStep_measure (s := s) hWF hs hmem hcore
    obtain ⟨hcore2, hle2, hv2, hheap2, hrel2, hpush2, hmeas2⟩ :=
      ih (relaxStep g v st zw) (fun z hz => hsub z (List.mem_cons_of_mem _ hz)) hcore1
    refine ⟨hcore2, ?_, ?_, ?_, ?_, ?_, ?_⟩
    · intro x
      exact le_trans (hle2 x) (hle1 x)
    · rw [hv2, hv1]
    · intro e he
      exact hheap2 e (hheap1 e he)
    · intro zw2 hzw2
      rcases List.mem_cons.mp hzw2 with h | h
      · subst h
        rw [hv2]
        exact le_trans (hle2 _) hrel1
      · exact hrel2 zw2 h
    · intro x hx
      by_cases h : (t.foldl (relaxStep g v) (relaxStep g v st zw)).tag x
          = (relaxStep g v st zw).tag x
      · obtain ⟨k, hk⟩ := hpush1 x (by rw [← h]; exact hx)
        exact ⟨k, hheap2 _ hk⟩
      · exact hpush2 x h
    · omega

lemma findMin_mem : ∀ (l : List (W × Nat)) (m : W × Nat), findMin l = some m → m ∈ l := by
  intro l
  induction l with
  | nil => intro m h; cases h
  | cons x xs ih =>
    intro m h
    have he : findMin (x :: xs) = some (match findMin xs with
        | none => x
        | some m2 => if keyLe x m2 then x else m2) := rfl
    rw [he] at h
    injection h with h2
    revert h2
    cases hfx : findMin xs with
    | none =>
      intro h2
      dsimp only at h2
      exact List.mem_cons.mpr (Or.inl h2.symm)
    | some m2 =>
      intro h2
      dsimp only at h2
      by_cases hk : keyLe x m2 = true
      · rw [if_pos hk] at h2
        exact List.mem_cons.mpr (Or.inl h2.symm)
      · rw [if_neg hk] at h2
        exact List.mem_cons.mpr (Or.inr (h2 ▸ ih m2 hfx))

lemma popMin_spec {l : List (W × Nat)} (h : l ≠ []) :
    ∃ m, popMin l = some (m, l.erase m) ∧ m ∈ l := by
  match l, h with
  | x :: xs, _ =>
    obtain ⟨m, hm⟩ : ∃ m, findMin (x :: xs) = some m := ⟨_, rfl⟩
    refine ⟨m, ?_, findMin_mem _ _ hm⟩
    unfold popMin
    rw [hm]

lemma core_heap_swap {g : DiGraph} {s : Nat} {st : DState} (h : DInvCore g s st)
    (hp : List (W × Nat)) : DInvCore g s { st with heap := hp } :=
  ⟨h.tagS, h.tagNN, h.prevEdge, h.reach, h.spw, h.visNil⟩

lemma dstep_main {g : DiGraph} {s : Nat} {st : DState}
    (hWF : WFGraph g) (hs : s ∈ vertIds g) (hne : st.heap ≠ [])
    (hinv : DInv g s st) :
    DInv g s (dstep g st) ∧
      (∀ x, (dstep g st).tag x ≤ st.tag x) ∧
      (dstep g st).heap.length + phiTot g s (dstep g st) + 1
        ≤ st.heap.length + phiTot g s st := by
  obtain ⟨m, hpm, hmm⟩ := popMin_spec hne
  have hstep : dstep g st = relaxAll g m.2 { st with heap := st.heap.erase m } := by
    unfold dstep
    rw [hpm]
  rw [hstep]
  unfold relaxAll
  have hcore1 : DInvCore g s { st with heap := st.heap.erase m } :=
    core_heap_swap hinv.core _
  obtain ⟨hcore2, hle2, hv2, hheap2, hrel2, hpush2, hmeas2⟩ :=
    relaxList_main (v := m.2) hWF hs (all_out_edges_of_node g m.2)
      { st with heap := st.heap.erase m } (fun zw hzw => hzw) hcore1
  have hphi_same : phiTot g s { st with heap := st.heap.erase m } = phiTot g s st := rfl
  have hlen_erase : (st.heap.erase m).length = st.heap.length - 1 :=
    List.length_erase_of_mem hmm
  have hlen_pos : 0 < st.heap.length := List.length_pos.mpr hne
  have hlen_lit : ({ st with heap := st.heap.erase m } : DState).heap.length
      = (st.heap.erase m).length := rfl
  refine ⟨⟨hcore2, ?_⟩, hle2, ?_⟩
  · -- heap-or-relaxed restored
    intro x hx
    by_cases hxv : x = m.2
    · subst hxv
      exact Or.inr (fun zw hzw => hrel2 zw hzw)
    · by_cases hch : ((all_out_edges_of_node g m.2).foldl (relaxStep g m.2)
          { st with heap := st.heap.erase m }).tag x
          = ({ st with heap := st.heap.erase m } : DState).tag x
      · have hxt : st.tag x < ⊤ := by
          rw [← show ({ st with heap := st.heap.erase m } : DState).tag x = st.tag x from rfl,
            ← hch]
          exact hx
        rcases hinv.hr x hxt with ⟨k2, hk2⟩ | hrx
        · refine Or.inl ⟨k2, hheap2 _ ?_⟩
          show (k2, x) ∈ st.heap.erase m
          rw [List.mem_erase_of_ne ?_]
          · exact hk2
          · intro hxe
            exact hxv (congrArg Prod.snd hxe)
        · refine Or.inr ?_
          intro zw hzw
          calc ((all_out_edges_of_node g m.2).foldl (relaxStep g m.2)
                { st with heap := st.heap.erase m }).tag zw.1
              ≤ st.tag zw.1 := hle2 zw.1
            _ ≤ st.tag x + ((zw.2 : ℚ) : W) := hrx zw hzw
            _ = _ := by rw [← hch]
      · obtain ⟨k, hk⟩ := hpush2 x hch
        exact Or.inl ⟨k, hk⟩
  · omega

lemma initD_tag {g : DiGraph} {s x : Nat} :
    (initD g s).tag x = if x = s then (0 : W) else ⊤ := rfl

lemma initD_inv {g : DiGraph} {s : Nat} (hs : s ∈ vertIds g) :
    DInv g s (initD g s) := by
  have htop : ∀ x, (initD g s).tag x < ⊤ → x = s := by
    intro x hx
    by_contra h
    rw [initD_tag, if_neg h] at hx
    exact lt_irrefl _ hx
  have htag : (initD g s).tag s = 0 := by
    rw [initD_tag, if_pos rfl]
  refine ⟨⟨htag, ?_, ?_, ?_, ?_, rfl⟩, ?_⟩
  · intro z
    rw [initD_tag]
    by_cases h : z = s
    · rw [if_pos h]
    · rw [if_neg h]; exact le_top
  · intro z u hz
    cases hz
  · intro z hz
    rw [htop z hz]
    exact PrevReaches.base
  · intro v hv
    rw [htop v hv]
    refine ⟨[s], ⟨rfl, rfl, rfl, List.nodup_singleton _⟩, ?_, ?_⟩
    · rw [htag]
      have hp0 : pathW g [s] = 0 := rfl
      rw [hp0]
      simp
    · intro q y hq hqp hql
      obtain ⟨t, ht⟩ := hqp
      match q, hq, ht, hql with
      | a :: r, _, ht, hql =>
        injection ht with h1 h2
        have hr : r = [] := by
          cases r with
          | nil => rfl
          | cons c r2 => exact absurd h2 (by simp)
        subst hr
        have hy : a = y := by simpa using hql
        subst hy
        subst h1
        rw [htag]
        simp [pathW]
  · intro v hv
    rw [htop v hv]
    exact Or.inl ⟨(0 : W), List.mem_singleton.mpr rfl⟩

lemma chainTo_of_mem {pm : Nat → Option Nat} {s : Nat} :
    ∀ {u : Nat} {l : List Nat}, ChainTo pm s u l → ∀ z ∈ l, ∃ l2, ChainTo pm s z l2 := by
  intro u l h
  induction h with
  | base =>
    intro z hz
    rw [List.mem_singleton] at hz
    rw [hz]
    exact ⟨[s], ChainTo.base⟩
  | step hpz hch hnot ih =>
    rename_i z2 u2 l2
    intro z hz
    rcases List.mem_cons.mp hz with h | h
    · subst h
      exact ⟨z :: l2, ChainTo.step hpz hch hnot⟩
    · exact ih z h

lemma prevReaches_chainTo {pm : Nat → Option Nat} {s : Nat} :
    ∀ {z : Nat}, PrevReaches pm s z → ∃ l, ChainTo pm s z l := by
  intro z h
  induction h with
  | base => exact ⟨[s], ChainTo.base⟩
  | @step z2 u2 hpz _ ih =>
    obtain ⟨l, hl⟩ := ih
    by_cases hmem : z2 ∈ l
    · exact chainTo_of_mem hl z2 hmem
    · exact ⟨z2 :: l, ChainTo.step hpz hl hmem⟩

lemma chainTo_nodup {pm : Nat → Option Nat} {s : Nat} :
    ∀ {z : Nat} {l : List Nat}, ChainTo pm s z l → l.Nodup := by
  intro z l h
  induction h with
  | base => exact List.nodup_singleton _
  | step _ _ hnot ih => exact List.nodup_cons.mpr ⟨hnot, ih⟩

lemma chainTo_mem_verts {g : DiGraph} {s : Nat} {st : DState}
    (hWF : WFGraph g) (hs : s ∈ vertIds g) (hcore : DInvCore g s st) :
    ∀ {z : Nat} {l : List Nat}, ChainTo st.prevM s z l → ∀ x ∈ l, x ∈ vertIds g := by
  intro z l h
  induction h with
  | base =>
    intro x hx
    rw [List.mem_singleton] at hx
    rw [hx]
    exact hs
  | step hpz _ _ ih =>
    rename_i z2 u2 l2
    intro x hx
    rcases List.mem_cons.mp hx with h | h
    · subst h
      obtain ⟨w, hw, -⟩ := hcore.prevEdge _ _ hpz
      exact edge_dest_mem hWF hw
    · exact ih x h

lemma chainTo_length {g : DiGraph} {s : Nat} {st : DState}
    (hWF : WFGraph g) (hs : s ∈ vertIds g) (hcore : DInvCore g s st)
    {z : Nat} {l : List Nat} (h : ChainTo st.prevM s z l) :
    l.length ≤ g.nodes.length := by
  have h1 := nodup_subset_length (chainTo_nodup h) (chainTo_mem_verts hWF hs hcore h)
  unfold vertIds at h1
  rw [List.length_map] at h1
  exact h1

lemma tag_fin_of_prev {g : DiGraph} {s : Nat} {st : DState}
    (hcore : DInvCore g s st) {z u : Nat} (hpz : st.prevM z = some u)
    (hz : st.tag z < ⊤) : st.tag u < ⊤ := by
  obtain ⟨w, -, hle⟩ := hcore.prevEdge _ _ hpz
  by_contra htop
  have hu : st.tag u = ⊤ := le_antisymm le_top (not_lt.mp htop)
  rw [hu, top_add] at hle
  exact absurd (lt_of_le_of_lt hle hz) (lt_irrefl _)

lemma rebuild_ok {g : DiGraph} {s : Nat} {st : DState}
    (hcore : DInvCore g s st) :
    ∀ {z : Nat} {l : List Nat}, ChainTo st.prevM s z l → st.tag z < ⊤ →
      ∀ (acc : List Nat) (n : Nat), l.length ≤ n →
        ∃ y li, rebuild st n z acc = Except.ok li ∧ li.head? = some y ∧
          st.tag y < ⊤ ∧ ¬ (0 : W) < st.tag y ∧
          li.getLast? = (z :: acc).getLast? := by
  intro z l h
  induction h with
  | base =>
    intro hfin acc n hn
    match n, hn with
    | m + 1, _ =>
      refine ⟨s, s :: acc, ?_, rfl, hfin, ?_, rfl⟩
      · unfold rebuild
        rw [if_neg (by rw [hcore.tagS]; exact lt_irrefl _)]
      · rw [hcore.tagS]
        exact lt_irrefl _
  | @step z2 u2 l2 hpz hch hnot ih =>
    intro hfin acc n hn
    match n, hn with
    | m + 1, hn =>
      by_cases h0 : (0 : W) < st.tag z2
      · have hfin2 : st.tag u2 < ⊤ := tag_fin_of_prev hcore hpz hfin
        have hlen2 : l2.length ≤ m := by
          rw [List.length_cons] at hn
          omega
        obtain ⟨y, li, hok, hhead, hyfin, hy0, hlast⟩ := ih hfin2 (z2 :: acc) m hlen2
        refine ⟨y, li, ?_, hhead, hyfin, hy0, ?_⟩
        · unfold rebuild
          rw [if_pos h0, hpz]
          exact hok
        · rw [hlast]
          rw [List.getLast?_cons_cons]
      · refine ⟨z2, z2 :: acc, ?_, rfl, hfin, h0, rfl⟩
        unfold rebuild
        rw [if_neg h0]

lemma relaxed_chain_le {g : DiGraph} {st : DState} (hWF : WFGraph g)
    (hrelax : ∀ v, st.tag v < ⊤ → Relaxed g st v) :
    ∀ (r : List Nat) (x y : Nat), chainB g (x :: r) = true →
      (x :: r).getLast? = some y → st.tag x < ⊤ →
      st.tag y ≤ st.tag x + ((pathW g (x :: r) : ℚ) : W) := by
  intro r
  induction r with
  | nil =>
    intro x y _ hl hfin
    have hxy : x = y := by simpa using hl
    subst hxy
    have h0 : pathW g [x] = 0 := rfl
    rw [h0]
    simp
  | cons z r2 ih =>
    intro x y hc hl hfin
    rw [chainB_cons_cons] at hc
    obtain ⟨w, hw⟩ := hasEdgeB_iff.mp hc.1
    have hwz : edgeW g x z = w := edgeW_eq hWF hw
    have hrel := hrelax x hfin (z, w) hw
    have hwfin : ((w : ℚ) : W) < ⊤ := WithTop.coe_lt_top _
    have hzfin : st.tag z < ⊤ :=
      lt_of_le_of_lt hrel (WithTop.add_lt_top.mpr ⟨hfin, hwfin⟩)
    have hih := ih z y hc.2 (by simpa using hl) hzfin
    have hpw : pathW g (x :: z :: r2) = w + pathW g (z :: r2) := by
      show edgeW g x z + pathW g (z :: r2) = w + pathW g (z :: r2)
      rw [hwz]
    rw [hpw]
    calc st.tag y ≤ st.tag z + ((pathW g (z :: r2) : ℚ) : W) := hih
      _ ≤ (st.tag x + ((w : ℚ) : W)) + ((pathW g (z :: r2) : ℚ) : W) :=
          add_le_add_right hrel _
      _ = st.tag x + (((w + pathW g (z :: r2) : ℚ)) : W) := by
          rw [add_assoc]
          push_cast
          rfl

lemma final_upper {g : DiGraph} {s : Nat} {st : DState} (hWF : WFGraph g)
    (hinv : DInv g s st) (hempty : st.heap = []) :
    ∀ (v : Nat) (p : List Nat), IsPathFrom g s v p →
      st.tag v ≤ ((pathW g p : ℚ) : W) := by
  intro v p hp
  obtain ⟨hhead, hlast, hchain⟩ := hp
  have hrelax : ∀ x, st.tag x < ⊤ → Relaxed g st x := by
    intro x hx
    rcases hinv.hr x hx with ⟨k, hk⟩ | h
    · rw [hempty] at hk
      cases hk
    · exact h
  match p, hhead with
  | c :: r, hhead =>
    have hcs : c = s := by simpa using hhead
    have htags : st.tag c = 0 := by rw [hcs]; exact hinv.core.tagS
    have h0top : st.tag c < ⊤ := by
      rw [htags]
      simpa using WithTop.coe_lt_top (0 : ℚ)
    have hle := relaxed_chain_le hWF hrelax r c v hchain hlast h0top
    rw [htags, zero_add] at hle
    exact hle

lemma runD_inv {g : DiGraph} {s : Nat} (hWF : WFGraph g) (hs : s ∈ vertIds g) :
    ∀ (n : Nat) (st : DState), DInv g s st → DInv g s (runD g n st) := by
  intro n
  induction n with
  | zero => intro st h; exact h
  | succ m ih =>
    intro st h
    unfold runD
    by_cases hne : st.heap = []
    · rw [if_pos hne]; exact h
    · rw [if_neg hne]
      exact ih _ (dstep_main hWF hs hne h).1

lemma runD_complete {g : DiGraph} {s : Nat} (hWF : WFGraph g) (hs : s ∈ vertIds g) :
    ∀ (n : Nat) (st : DState), DInv g s st →
      st.heap.length + phiTot g s st ≤ n → (runD g n st).heap = [] := by
  intro n
  induction n with
  | zero =>
    intro st _ hm
    have : st.heap.length = 0 := by omega
    exact List.length_eq_zero.mp this
  | succ m ih =>
    intro st h hm
    unfold runD
    by_cases hne : st.heap = []
    · rw [if_pos hne]; exact hne
    · rw [if_neg hne]
      obtain ⟨hinv2, -, hmeas⟩ := dstep_main hWF hs hne h
      exact ih _ hinv2 (by omega)

lemma dijkstra_terminates {g : DiGraph} {s : Nat} (hWF : WFGraph g)
    (hs : s ∈ vertIds g) :
    ∃ fuel, (runD g fuel (initD g s)).heap = [] :=
  ⟨(initD g s).heap.length + phiTot g s (initD g s),
    runD_complete hWF hs _ _ (initD_inv hs) (le_refl _)⟩

lemma shortest_path_eq {g : DiGraph} {id1 id2 fuel : Nat}
    (h1 : id1 ∈ vertIds g) (h2 : id2 ∈ vertIds g) {li : List Nat}
    (hrb : rebuild (runD g fuel (initD g id1)) (g.nodes.length + 1) id2 []
      = Except.ok li) :
    shortest_path g id1 id2 fuel
      = Except.ok (some ((runD g fuel (initD g id1)).tag id2, li)) := by
  unfold shortest_path
  rw [if_pos ⟨h1, h2⟩]
  dsimp only
  rw [hrb]

/-- C6: for every well-formed graph and every present vertex v, and any
fuel for the loop, shortest_path v v returns (0, [v]): the source tag
stays 0 (non-negative weights cannot improve it), so reconstruction stops
immediately. -/
theorem spec_C6 (g : DiGraph) (v fuel : Nat) (hWF : WFGraph g)
    (hv : v ∈ vertIds g) :
    shortest_path g v v fuel = Except.ok (some ((0 : W), [v])) := by
  have hinv := runD_inv hWF hv fuel _ (initD_inv hv)
  have htag : (runD g fuel (initD g v)).tag v = 0 := hinv.core.tagS
  have hrb : rebuild (runD g fuel (initD g v)) (g.nodes.length + 1) v []
      = Except.ok [v] := by
    unfold rebuild
    rw [if_neg (by rw [htag]; exact lt_irrefl _)]
  rw [shortest_path_eq hv hv hrb, htag]

unseal Rat.add in
/-- Witness for spec_C6 at the example graph. -/
theorem spec_C6_witness :
    WFGraph gEx ∧ 1 ∈ vertIds gEx ∧
      shortest_path gEx 1 1 10 = Except.ok (some ((0 : W), [1])) :=
  ⟨by decide, by decide, spec_C6 gEx 1 10 (by decide) (by decide)⟩

/-- C10: the while-loop of shortest_path terminates: the visited list is
never appended to, but every push to the heap strictly decreases the
pushed vertex's tag within the finite set of simple-path weights, so some
fuel drains the heap. -/
theorem spec_C10 (g : DiGraph) (s : Nat) (hWF : WFGraph g)
    (hs : s ∈ vertIds g) :
    (∀ fuel, (runD g fuel (initD g s)).visitedL = []) ∧
      ∃ fuel, (runD g fuel (initD g s)).heap = [] :=
  ⟨fun fuel => (runD_inv hWF hs fuel _ (initD_inv hs)).core.visNil,
    dijkstra_terminates hWF hs⟩

unseal Rat.add in
/-- Witness for spec_C10 at the example graph. -/
theorem spec_C10_witness :
    WFGraph gEx ∧ 0 ∈ vertIds gEx ∧
      ((∀ fuel, (runD gEx fuel (initD gEx 0)).visitedL = []) ∧
        ∃ fuel, (runD gEx fuel (initD gEx 0)).heap = []) :=
  ⟨by decide, by decide, spec_C10 gEx 0 (by decide) (by decide)⟩

unseal Rat.add in
/-- C1: on every well-formed graph with the target reachable from the
source and enough fuel to drain the heap, shortest_path returns normally
and its distance component is the minimum total edge weight over all
directed paths from source to target; and the worked example of the spec
evaluates as stated. -/
theorem spec_C1 :
    (∀ (g : DiGraph) (s t fuel : Nat), WFGraph g → s ∈ vertIds g →
      t ∈ vertIds g → Reachable g s t → (runD g fuel (initD g s)).heap = [] →
      ∃ d li, shortest_path g s t fuel = Except.ok (some (d, li)) ∧
        (∃ p, IsPathFrom g s t p ∧ d = ((pathW g p : ℚ) : W)) ∧
        (∀ p, IsPathFrom g s t p → d ≤ ((pathW g p : ℚ) : W))) ∧
    shortest_path gEx 0 1 10 = Except.ok (some ((1 : W), [0, 1])) ∧
    shortest_path gEx 0 2 10 = Except.ok (some ((5 : W), [0, 1, 2])) := by
  refine ⟨?_, by decide, by decide⟩
  intro g s t fuel hWF hs ht hreach hdone
  have hinv := runD_inv hWF hs fuel _ (initD_inv hs)
  obtain ⟨p1, hp1⟩ := hreach
  have hub := final_upper hWF hinv hdone t p1 hp1
  have hfin : (runD g fuel (initD g s)).tag t < ⊤ :=
    lt_of_le_of_lt hub (WithTop.coe_lt_top _)
  have hpr : PrevReaches (runD g fuel (initD g s)).prevM s t :=
    hinv.core.reach t hfin
  obtain ⟨l, hl⟩ := prevReaches_chainTo hpr
  have hlen : l.length ≤ g.nodes.length + 1 :=
    le_trans (chainTo_length hWF hs hinv.core hl) (Nat.le_succ _)
  obtain ⟨y, li, hok, -, -, -, -⟩ := rebuild_ok hinv.core hl hfin [] _ hlen
  refine ⟨(runD g fuel (initD g s)).tag t, li, shortest_path_eq hs ht hok, ?_, ?_⟩
  · obtain ⟨p0, hsp0, hw0, -⟩ := hinv.core.spw t hfin
    exact ⟨p0, ⟨hsp0.1, hsp0.2.1, hsp0.2.2.1⟩, hw0.symm⟩
  · intro p hp
    exact final_upper hWF hinv hdone t p hp

unseal Rat.add in
/-- Witness for the universally quantified part of spec_C1 at the worked
example: 2 is reachable from 0 and fuel 10 drains the heap. -/
theorem spec_C1_witness :
    (WFGraph gEx ∧ 0 ∈ vertIds gEx ∧ 2 ∈ vertIds gEx ∧ Reachable gEx 0 2 ∧
      (runD gEx 10 (initD gEx 0)).heap = []) ∧
      ∃ d li, shortest_path gEx 0 2 10 = Except.ok (some (d, li)) ∧
        (∃ p, IsPathFrom gEx 0 2 p ∧ d = ((pathW gEx p : ℚ) : W)) ∧
        (∀ p, IsPathFrom gEx 0 2 p → d ≤ ((pathW gEx p : ℚ) : W)) :=
  ⟨⟨by decide, by decide, by decide, ⟨[0, 1, 2], by decide⟩, by decide⟩,
    spec_C1.1 gEx 0 2 10 (by decide) (by decide) (by decide)
      ⟨[0, 1, 2], by decide⟩ (by decide)⟩

/-- C5 as amended: reconstruction terminates when the current tag is not
positive, so the returned path always ends at the target; when every edge
weight is strictly positive, the only vertex of tag zero is the source,
so the path also begins at the source. -/
theorem spec_C5_amended_thm (g : DiGraph) (s t fuel : Nat) (hWF : WFGraph g)
    (hpos : ∀ e ∈ g.edges, 0 < e.2.2) (hs : s ∈ vertIds g) (ht : t ∈ vertIds g)
    (hreach : Reachable g s t) (hdone : (runD g fuel (initD g s)).heap = []) :
    ∃ d li, shortest_path g s t fuel = Except.ok (some (d, li)) ∧
      li.head? = some s ∧ li.getLast? = some t := by
  have hinv := runD_inv hWF hs fuel _ (initD_inv hs)
  obtain ⟨p1, hp1⟩ := hreach
  have hub := final_upper hWF hinv hdone t p1 hp1
  have hfin : (runD g fuel (initD g s)).tag t < ⊤ :=
    lt_of_le_of_lt hub (WithTop.coe_lt_top _)
  have hpr : PrevReaches (runD g fuel (initD g s)).prevM s t :=
    hinv.core.reach t hfin
  obtain ⟨l, hl⟩ := prevReaches_chainTo hpr
  have hlen : l.length ≤ g.nodes.length + 1 :=
    le_trans (chainTo_length hWF hs hinv.core hl) (Nat.le_succ _)
  obtain ⟨y, li, hok, hhead, hyfin, hy0, hlast⟩ := rebuild_ok hinv.core hl hfin [] _ hlen
  have hys : y = s := by
    have hy_tag : (runD g fuel (initD g s)).tag y = 0 :=
      le_antisymm (not_lt.mp hy0) (hinv.core.tagNN y)
    cases hinv.core.reach y hyfin with
    | base => rfl
    | step hpz hrest =>
      rename_i u2
      exfalso
      obtain ⟨w2, hw2, hle2⟩ := hinv.core.prevEdge _ _ hpz
      have hw2pos : 0 < w2 := hpos _ (mem_all_out.mp hw2)
      have h1 : (0 : W) < ((w2 : ℚ) : W) := by exact_mod_cast hw2pos
      have h2 : (0 : W) < (runD g fuel (initD g s)).tag u2 + ((w2 : ℚ) : W) :=
        lt_of_lt_of_le h1 (le_add_of_nonneg_left (hinv.core.tagNN u2))
      rw [hy_tag] at hle2
      exact absurd (lt_of_lt_of_le h2 hle2) (lt_irrefl _)
  refine ⟨(runD g fuel (initD g s)).tag t, li, shortest_path_eq hs ht hok, ?_, ?_⟩
  · rw [hhead, hys]
  · rw [hlast]
    rfl

unseal Rat.add in
/-- Witness for the amended C5 at the worked example, whose weights are
strictly positive. -/
theorem spec_C5_amended_witness :
    (WFGraph gEx ∧ (∀ e ∈ gEx.edges, 0 < e.2.2) ∧ 0 ∈ vertIds gEx ∧
      2 ∈ vertIds gEx ∧ Reachable gEx 0 2 ∧
      (runD gEx 10 (initD gEx 0)).heap = []) ∧
      ∃ d li, shortest_path gEx 0 2 10 = Except.ok (some (d, li)) ∧
        li.head? = some 0 ∧ li.getLast? = some 2 :=
  ⟨⟨by decide, by decide, by decide, by decide, ⟨[0, 1, 2], by decide⟩, by decide⟩,
    spec_C5_amended_thm gEx 0 2 10 (by decide) (by decide) (by decide) (by decide)
      ⟨[0, 1, 2], by decide⟩ (by decide)⟩

lemma all_out_map_triple (g : DiGraph) (v : Nat) :
    (all_out_edges_of_node g v).map (fun dw => (v, dw.1, dw.2))
      = g.edges.filter (fun e => e.1 == v) := by
  unfold all_out_edges_of_node
  rw [filterMap_out, List.map_map]
  have hpt : ∀ e ∈ g.edges.filter (fun e => e.1 == v),
      ((fun dw : Nat × ℚ => (v, dw.1, dw.2)) ∘ (fun e : Nat × Nat × ℚ => (e.2.1, e.2.2))) e
        = id e := by
    intro e hemem
    have h1 : e.1 = v := by simpa using (List.mem_filter.mp hemem).2
    show (v, e.2.1, e.2.2) = e
    rw [← h1]
  rw [List.map_congr_left hpt, List.map_id]

lemma flatMap_filter_perm :
    ∀ (vs : List Nat) (es : List (Nat × Nat × ℚ)), vs.Nodup →
      (∀ e ∈ es, e.1 ∈ vs) →
      (vs.flatMap (fun v => es.filter (fun e => e.1 == v))).Perm es := by
  intro vs
  induction vs with
  | nil =>
    intro es _ hsub
    match es with
    | [] => exact List.Perm.refl _
    | e :: t => exact absurd (hsub e (List.mem_cons_self _ _)) (List.not_mem_nil _)
  | cons v vr ih =>
    intro es hnd hsub
    rw [List.flatMap_cons]
    have hnd2 := List.nodup_cons.mp hnd
    have hcongr : ∀ u ∈ vr, es.filter (fun e => e.1 == u)
        = (es.filter (fun e => !(e.1 == v))).filter (fun e => e.1 == u) := by
      intro u hu
      rw [List.filter_filter]
      refine (List.filter_congr ?_).symm
      intro e _
      by_cases h : e.1 = u
      · have huv : u ≠ v := by
          intro hc
          exact hnd2.1 (hc ▸ hu)
        simp [h, huv]
      · simp [h]
    have hsub2 : ∀ e ∈ es.filter (fun e => !(e.1 == v)), e.1 ∈ vr := by
      intro e hemem
      obtain ⟨h1, h2⟩ := List.mem_filter.mp hemem
      have h3 := hsub e h1
      rcases List.mem_cons.mp h3 with h | h
      · exact absurd (by simpa using h) (by simpa using h2)
      · exact h
    have hperm2 : (vr.flatMap (fun u => es.filter (fun e => e.1 == u))).Perm
        (es.filter (fun e => !(e.1 == v))) := by
      rw [List.flatMap_congr hcongr]
      exact ih _ hnd2.2 hsub2
    exact List.Perm.trans (List.Perm.append_left _ hperm2)
      (List.filter_append_perm _ es)

lemma saveDoc_edges_perm {g : DiGraph} (hWF : WFGraph g) :
    (saveDoc g).edgesJ.Perm g.edges := by
  unfold saveDoc
  dsimp only
  have heq : (vertIds g).flatMap
      (fun v => (all_out_edges_of_node g v).map (fun dw => (v, dw.1, dw.2)))
      = (vertIds g).flatMap (fun v => g.edges.filter (fun e => e.1 == v)) := by
    refine List.flatMap_congr ?_
    intro v _
    exact all_out_map_triple g v
  rw [heq]
  exact flatMap_filter_perm (vertIds g) g.edges hWF.1
    (fun e he => (hWF.2.2 e he).1)

lemma foldl_add_node (l : List (Nat × Option Pos)) :
    ∀ g : DiGraph, (l.map Prod.fst).Nodup → (∀ n ∈ l, n.1 ∉ vertIds g) →
      (l.foldl (fun h n => add_node h n.1 n.2) g).nodes = g.nodes ++ l ∧
      (l.foldl (fun h n => add_node h n.1 n.2) g).edges = g.edges := by
  induction l with
  | nil =>
    intro g _ _
    rw [List.foldl_nil, List.append_nil]
    exact ⟨rfl, rfl⟩
  | cons n t ih =>
    intro g hnd hnew
    rw [List.foldl_cons]
    have hn1 : n.1 ∉ vertIds g := hnew n (List.mem_cons_self _ _)
    have hstep : add_node g n.1 n.2 = { g with nodes := g.nodes ++ [n] } := by
      unfold add_node
      rw [if_neg hn1]
    rw [hstep]
    rw [List.map_cons] at hnd
    have hnd2 := List.nodup_cons.mp hnd
    have hverts : vertIds { g with nodes := g.nodes ++ [n] }
        = vertIds g ++ [n.1] := by
      unfold vertIds
      dsimp only
      simp
    have hnew2 : ∀ m ∈ t, m.1 ∉ vertIds { g with nodes := g.nodes ++ [n] } := by
      intro m hm
      rw [hverts, List.mem_append]
      rintro (h | h)
      · exact hnew m (List.mem_cons_of_mem _ hm) h
      · have hm1 : m.1 = n.1 := by simpa using h
        exact hnd2.1 (hm1 ▸ List.mem_map.mpr ⟨m, hm, rfl⟩)
    obtain ⟨ih1, ih2⟩ := ih { g with nodes := g.nodes ++ [n] } hnd2.2 hnew2
    refine ⟨?_, ih2⟩
    rw [ih1]
    dsimp only
    simp

lemma foldl_add_edge (l : List (Nat × Nat × ℚ)) :
    ∀ g : DiGraph, (l.map (fun e => (e.1, e.2.1))).Nodup →
      (∀ e ∈ l, e.1 ∈ vertIds g ∧ e.2.1 ∈ vertIds g ∧ 0 ≤ e.2.2 ∧ e.1 ≠ e.2.1) →
      (∀ e ∈ l, (e.1, e.2.1) ∉ g.edges.map (fun e2 => (e2.1, e2.2.1))) →
      (l.foldl (fun h e => add_edge h e.1 e.2.1 e.2.2) g).edges = g.edges ++ l ∧
      (l.foldl (fun h e => add_edge h e.1 e.2.1 e.2.2) g).nodes = g.nodes := by
  induction l with
  | nil =>
    intro g _ _ _
    rw [List.foldl_nil, List.append_nil]
    exact ⟨rfl, rfl⟩
  | cons e t ih =>
    intro g hnd hok hnew
    rw [List.foldl_cons]
    have he_ok := hok e (List.mem_cons_self _ _)
    have he_new := hnew e (List.mem_cons_self _ _)
    have hstep : add_edge g e.1 e.2.1 e.2.2 = { g with edges := g.edges ++ [e] } := by
      unfold add_edge
      rw [if_pos he_ok, if_neg he_new]
    rw [hstep]
    rw [List.map_cons] at hnd
    have hnd2 := List.nodup_cons.mp hnd
    have hok2 : ∀ m ∈ t, m.1 ∈ vertIds { g with edges := g.edges ++ [e] } ∧
        m.2.1 ∈ vertIds { g with edges := g.edges ++ [e] } ∧ 0 ≤ m.2.2 ∧ m.1 ≠ m.2.1 := by
      intro m hm
      exact hok m (List.mem_cons_of_mem _ hm)
    have hnew2 : ∀ m ∈ t, (m.1, m.2.1)
        ∉ ({ g with edges := g.edges ++ [e] } : DiGraph).edges.map (fun e2 => (e2.1, e2.2.1)) := by
      intro m hm
      dsimp only
      rw [List.map_append, List.mem_append]
      rintro (h | h)
      · exact hnew m (List.mem_cons_of_mem _ hm) h
      · have hm1 : (m.1, m.2.1) = (e.1, e.2.1) := by simpa using h
        exact hnd2.1 (hm1 ▸ List.mem_map.mpr ⟨m, hm, rfl⟩)
    obtain ⟨ih1, ih2⟩ := ih { g with edges := g.edges ++ [e] } hnd2.2 hok2 hnew2
    refine ⟨?_, ih2⟩
    rw [ih1]
    dsimp only
    simp

/-- C8: loading any reordering of a saved document into a fresh graph
reproduces the vertex list (ids with their positions) and the edge triple
list up to permutation, hence the same vertex id set, position values and
edge (src, dest, weight) set. -/
theorem spec_C8 (g : DiGraph) (doc : JsonDoc) (hWF : WFGraph g)
    (hn : doc.nodesJ.Perm (saveDoc g).nodesJ)
    (he : doc.edgesJ.Perm (saveDoc g).edgesJ) :
    (loadDoc emptyG doc).nodes.Perm g.nodes ∧
      (loadDoc emptyG doc).edges.Perm g.edges := by
  have hn2 : doc.nodesJ.Perm g.nodes := hn
  have he2 : doc.edgesJ.Perm g.edges := he.trans (saveDoc_edges_perm hWF)
  have hnodesNodup : (doc.nodesJ.map Prod.fst).Nodup :=
    (List.Perm.nodup_iff (hn2.map Prod.fst)).mpr hWF.1
  obtain ⟨hfn1, hfn2⟩ := foldl_add_node doc.nodesJ emptyG hnodesNodup
    (fun n _ hmem => absurd hmem (List.not_mem_nil _))
  have hg1nodes : (doc.nodesJ.foldl (fun h n => add_node h n.1 n.2) emptyG).nodes
      = doc.nodesJ := by
    rw [hfn1]
    rfl
  have hg1edges : (doc.nodesJ.foldl (fun h n => add_node h n.1 n.2) emptyG).edges
      = [] := hfn2
  have hg1verts : vertIds (doc.nodesJ.foldl (fun h n => add_node h n.1 n.2) emptyG)
      = doc.nodesJ.map Prod.fst := by
    unfold vertIds
    rw [hg1nodes]
  have hvmem : ∀ x, x ∈ vertIds g →
      x ∈ vertIds (doc.nodesJ.foldl (fun h n => add_node h n.1 n.2) emptyG) := by
    intro x hx
    rw [hg1verts]
    exact (List.Perm.mem_iff (hn2.map Prod.fst)).mpr hx
  have hedgesNodup : (doc.edgesJ.map (fun e => (e.1, e.2.1))).Nodup :=
    (List.Perm.nodup_iff (he2.map _)).mpr hWF.2.1
  obtain ⟨hfe1, hfe2⟩ := foldl_add_edge doc.edgesJ
    (doc.nodesJ.foldl (fun h n => add_node h n.1 n.2) emptyG) hedgesNodup
    (fun e hmem => by
      have hok := hWF.2.2 e ((List.Perm.mem_iff he2).mp hmem)
      exact ⟨hvmem _ hok.1, hvmem _ hok.2.1, hok.2.2.1, hok.2.2.2⟩)
    (fun e _ hmem => by
      rw [hg1edges] at hmem
      exact absurd hmem (List.not_mem_nil _))
  constructor
  · show (loadDoc emptyG doc).nodes.Perm g.nodes
    unfold loadDoc
    rw [hfe2, hg1nodes]
    exact hn2
  · unfold loadDoc
    rw [hfe1, hg1edges]
    exact he2

/-- Witness for spec_C8: the round trip through the reversed document of
the positioned example graph. -/
theorem spec_C8_witness :
    (WFGraph gPos ∧ docPosRev.nodesJ.Perm (saveDoc gPos).nodesJ ∧
      docPosRev.edgesJ.Perm (saveDoc gPos).edgesJ) ∧
      ((loadDoc emptyG docPosRev).nodes.Perm gPos.nodes ∧
        (loadDoc emptyG docPosRev).edges.Perm gPos.edges) :=
  ⟨⟨by decide, by decide, by decide⟩,
    spec_C8 gPos docPosRev (by decide) (by decide) (by decide)⟩
